import Mathlib

/-!
Verification of the portfolio computation engine of the
fidelity-total-return repository.

The embedding covers, from the source:
* the per-symbol ledger builder `parseActivity` and the reconciler
  `buildPortfolioModel` (file `src/unnamed/part_000`),
* the holdings parser `parsePositions` (same file, lines 246-264),
* the unitization engine `combineSeries`, the time-weighted-return
  calculator `computeTwr` and the bisection XIRR solver `computeXirr`
  (file `src/node-app/portfolio.js`, third segment, lines 360-442).

JavaScript numbers are modelled as rationals (ℚ), calendar dates as day
numbers (ℤ), and `null` as `Option`.  The XIRR net-present-value function
uses the real power `(1+r) ** (days/365.25)`, which is not expressible as
a computable rational function, so the solver is modelled as parametric
in an arbitrary `npv : ℚ → ℚ`; the theorems about it are proved for every
such function, hence in particular for the source's.
-/

namespace FidelityTR

/-- `EPSILON` from `src/node-app/portfolio.js` line 303: `1e-9`. -/
def EPSILON : ℚ := 1 / 1000000000

/-! ## Ledger builder (`src/unnamed/part_000`, `parseActivity`) -/

/-- The action classes produced by `classifyAction` (part_000 lines 93-100). -/
inductive ActionType
  | buy
  | sell
  | dividend
  | reinvest
  | other
deriving DecidableEq, Repr

/-- Within-day sort priority of an event, the `order` map of part_000
line 190: `{ dividend: 0, reinvest: 1, buy: 2, sell: 3, other: 4 }`. -/
def eventOrder : ActionType → ℕ
  | .dividend => 0
  | .reinvest => 1
  | .buy => 2
  | .sell => 3
  | .other => 4

/-- A normalized ledger event, the object built at part_000 lines 145-179.
`date` is a calendar-day number; `sequence` is the original row index used
as the final tie-break.  The `description` and `tradePrice` fields of the
source object play no role in any claim and are omitted. -/
structure Event where
  date : ℤ
  eventType : ActionType
  sequence : ℕ
  sharesDelta : ℚ
  cashFlow : ℚ
  dividendAmount : ℚ
  reinvested : Bool
deriving DecidableEq, Repr

/-- The comparator of part_000 lines 187-195 as a relation: date ascending,
then `eventOrder`, then input sequence. -/
def EventLE (a b : Event) : Prop :=
  a.date < b.date ∨ (a.date = b.date ∧
    (eventOrder a.eventType < eventOrder b.eventType ∨
      (eventOrder a.eventType = eventOrder b.eventType ∧ a.sequence ≤ b.sequence)))

instance : DecidableRel EventLE := fun a b => by
  unfold EventLE; infer_instance

instance : IsTotal Event EventLE := ⟨by
  intro a b
  unfold EventLE
  omega⟩

instance : IsTrans Event EventLE := ⟨by
  intro a b c
  unfold EventLE
  omega⟩

/-- `ledger.events.sort(comparator)` of part_000 line 187.  JavaScript's
`Array.sort` is stable and the comparator is a total preorder, so any
stable sort gives the source's result; we use insertion sort. -/
def sortEvents (l : List Event) : List Event := List.insertionSort EventLE l

/-- The JavaScript truthiness chain `a || b || c || d` over parsed numbers
(part_000 lines 119-124): the first non-zero value, else 0. -/
def firstNonzero : List ℚ → ℚ
  | [] => 0
  | a :: rest => if a = 0 then firstNonzero rest else a

/-- Event construction from a retained row, part_000 lines 118-179:
`qty = Math.abs(toNumber(row.Quantity))`,
`amount = Math.abs(toNumber(..) || toNumber(..) || ..)`, then the
`switch (eventType)` filling the signed fields. -/
def mkEvent (t : ActionType) (date : ℤ) (seq : ℕ) (qtyRaw : ℚ)
    (amountCandidates : List ℚ) : Event :=
  let qty := |qtyRaw|
  let amount := |firstNonzero amountCandidates|
  let base : Event :=
    { date := date, eventType := t, sequence := seq, sharesDelta := 0,
      cashFlow := 0, dividendAmount := 0, reinvested := false }
  match t with
  | .buy => { base with sharesDelta := qty, cashFlow := -amount }
  | .sell => { base with sharesDelta := -qty, cashFlow := amount }
  | .dividend => { base with dividendAmount := amount, cashFlow := amount }
  | .reinvest =>
      { base with dividendAmount := amount, sharesDelta := qty, reinvested := true }
  | .other => base

/-- An entry of `ledger.dividendEvents`, part_000 lines 213-218. -/
structure DividendEntry where
  date : ℤ
  amount : ℚ
  sharesAtEvent : ℚ
  reinvested : Bool
deriving DecidableEq, Repr

/-- An entry of `ledger.cashflows`, part_000 lines 223-229. -/
structure CashflowEntry where
  date : ℤ
  amount : ℚ
  type : ActionType
  external : Bool
deriving DecidableEq, Repr

/-- A per-symbol security ledger, the object of part_000 lines 126-143.
`shareHistory` entries are `(date, sharesAfter)` pairs. -/
structure Ledger where
  events : List Event
  shareHistory : List (ℤ × ℚ)
  dividendEvents : List DividendEntry
  cashflows : List CashflowEntry
  totalContributions : ℚ
  totalWithdrawals : ℚ
  netInvestedCash : ℚ
  dividendsReceived : ℚ
  currentShares : ℚ
  startDate : Option ℤ
  endDate : Option ℤ
  closed : Bool
  positionCostBasis : ℚ
  effectiveCostBasis : ℚ
  description : Option String
deriving DecidableEq, Repr

/-- The fresh ledger literal of part_000 lines 126-143. -/
def emptyLedger : Ledger :=
  { events := [], shareHistory := [], dividendEvents := [], cashflows := [],
    totalContributions := 0, totalWithdrawals := 0, netInvestedCash := 0,
    dividendsReceived := 0, currentShares := 0, startDate := none,
    endDate := none, closed := false, positionCostBasis := 0,
    effectiveCostBasis := 0, description := none }

/-- The mutable accumulators of the forward pass of part_000
lines 196-230 (`shares`, `shareHistory`, `dividendEvents`, `cashflows`,
`startDate`, `endDate`, `totalContrib`, `totalWithdrawals`,
`dividendsPaid`). -/
structure FoldState where
  shares : ℚ
  shareHistory : List (ℤ × ℚ)
  dividendEvents : List DividendEntry
  cashflows : List CashflowEntry
  startDate : Option ℤ
  endDate : Option ℤ
  totalContrib : ℚ
  totalWithdrawals : ℚ
  dividendsPaid : ℚ
deriving Repr

/-- Initial accumulator values, part_000 lines 196-204. -/
def initFoldState : FoldState :=
  { shares := 0, shareHistory := [], dividendEvents := [], cashflows := [],
    startDate := none, endDate := none, totalContrib := 0,
    totalWithdrawals := 0, dividendsPaid := 0 }

/-- One iteration of `ledger.events.forEach(event => ...)`, part_000
lines 205-230.  `before` is the running share count before this event's
own delta; a dividend entry is appended whenever `dividendAmount > 0`,
recording `before`; the cash-flow entry is marked external exactly when
the event type is not `reinvest` (line 228). -/
def foldStep (s : FoldState) (e : Event) : FoldState :=
  let newStart := match s.startDate with
    | none => some e.date
    | some d => if e.date < d then some e.date else some d
  let newEnd := match s.endDate with
    | none => some e.date
    | some d => if d < e.date then some e.date else some d
  let before := s.shares
  let after := before + e.sharesDelta
  { shares := after
    shareHistory := s.shareHistory ++ [(e.date, after)]
    dividendEvents := s.dividendEvents ++
      (if 0 < e.dividendAmount then
        [{ date := e.date, amount := e.dividendAmount, sharesAtEvent := before,
           reinvested := e.reinvested }]
       else [])
    cashflows := s.cashflows ++
      [{ date := e.date, amount := e.cashFlow, type := e.eventType,
         external := decide (e.eventType ≠ .reinvest) }]
    startDate := newStart
    endDate := newEnd
    totalContrib := s.totalContrib + (if e.eventType = .buy then -e.cashFlow else 0)
    totalWithdrawals := s.totalWithdrawals + (if e.eventType = .sell then e.cashFlow else 0)
    dividendsPaid := s.dividendsPaid + (if 0 < e.dividendAmount then e.dividendAmount else 0) }

/-- Building one symbol's ledger from its events: the sort of part_000
line 187, the forward pass of lines 196-230 and the field assignments of
lines 231-241.  The `isEmpty` branch mirrors line 186
(`if (!ledger.events.length) continue`), which leaves the fresh ledger
untouched. -/
def mkLedger (evs : List Event) : Ledger :=
  let sorted := sortEvents evs
  if sorted.isEmpty then { emptyLedger with events := sorted }
  else
    let s := sorted.foldl foldStep initFoldState
    { emptyLedger with
      events := sorted
      shareHistory := s.shareHistory
      dividendEvents := s.dividendEvents
      cashflows := s.cashflows
      totalContributions := s.totalContrib
      totalWithdrawals := s.totalWithdrawals
      netInvestedCash := s.totalContrib - s.totalWithdrawals
      dividendsReceived := s.dividendsPaid
      currentShares := s.shares
      startDate := s.startDate
      endDate := s.endDate
      closed := decide (s.shares ≤ 0) }

/-! ## Position reconciler (`src/unnamed/part_000`, `buildPortfolioModel`) -/

/-- A summed holdings entry, the object of part_000 line 257:
`{ shares, costBasis, description }`.  `description` is `none` for the
JavaScript falsy values `null` and the empty string. -/
structure Position where
  shares : ℚ
  costBasis : ℚ
  description : Option String
deriving DecidableEq, Repr

/-- The per-symbol body of the reconciliation loop of
`buildPortfolioModel`, part_000 lines 295-314: an existing holding
overrides `currentShares` and supplies `positionCostBasis` and possibly
the description; `effectiveCostBasis` is `positionCostBasis` when
positive, else `netInvestedCash`; a positive-share holding forces
`closed = false`, otherwise `closed = currentShares <= 0`. -/
def reconcile (ledger : Ledger) (pos : Option Position) : Ledger :=
  let l1 := match pos with
    | some p =>
        { ledger with
          positionCostBasis := p.costBasis
          currentShares := p.shares
          description := match p.description with
            | some d => some d
            | none => ledger.description }
    | none => ledger
  let l2 := { l1 with
    effectiveCostBasis :=
      if 0 < l1.positionCostBasis then l1.positionCostBasis else l1.netInvestedCash }
  match pos with
  | some p =>
      if 0 < p.shares then { l2 with closed := false }
      else { l2 with closed := decide (l2.currentShares ≤ 0) }
  | none => { l2 with closed := decide (l2.currentShares ≤ 0) }

/-- Dividend-entry recorder, modelled from the spec's words for the
refinement comparison of claim C7: walking the sorted events with a
running share count, each event with a positive `dividendAmount` records
the shares held immediately before that event's own share delta is
applied. -/
def divRecord (sh : ℚ) : List Event → List DividendEntry
  | [] => []
  | e :: rest =>
      (if 0 < e.dividendAmount then
        [{ date := e.date, amount := e.dividendAmount, sharesAtEvent := sh,
           reinvested := e.reinvested }]
       else []) ++ divRecord (sh + e.sharesDelta) rest

/-! ## Holdings parser (`src/unnamed/part_000`, `parsePositions`, lines 246-264) -/

/-- One already-header-mapped holdings row, carrying the results of the
row-level normalizers: `sym` is the outcome of
`extractSymbol(row.Symbol, row.Description)` (`none` when unresolvable),
`cashLike` the outcome of `isCashLike`, and `qty`/`cost` the raw numeric
cells before `toNumber` coercion, with `none` standing for a missing cell
or text `parseFloat` cannot parse (which `toNumber` coerces to 0). -/
structure PosRow where
  sym : Option String
  cashLike : Bool
  qty : Option ℚ
  cost : Option ℚ
  desc : Option String
deriving DecidableEq, Repr

/-- `toNumber` of part_000 lines 60-68 at the level of parsed cells:
a missing or unparsable value never fails and yields 0. -/
def toNumber (v : Option ℚ) : ℚ := v.getD 0

/-- `positions.get(symbol)` over the association-list model of the map. -/
def lookupPos : List (String × Position) → String → Option Position
  | [], _ => none
  | (k, v) :: rest, s => if k = s then some v else lookupPos rest s

/-- `positions.set(symbol, entry)` over the association-list model. -/
def insertPos : List (String × Position) → String → Position → List (String × Position)
  | [], s, p => [(s, p)]
  | (k, v) :: rest, s, p =>
      if k = s then (s, p) :: rest else (k, v) :: insertPos rest s p

/-- The body of `entries.forEach(row => ...)` of `parsePositions`,
part_000 lines 249-262: drop the row when the symbol is unresolved or
cash-like or the parsed quantity is not positive; otherwise sum shares
and cost basis into the symbol's entry and keep the first non-empty
description. -/
def posStep (m : List (String × Position)) (row : PosRow) : List (String × Position) :=
  match row.sym with
  | none => m
  | some s =>
      if row.cashLike then m
      else if toNumber row.qty ≤ 0 then m
      else
        let cost := toNumber row.cost
        let entry := match lookupPos m s with
          | some en => en
          | none => { shares := 0, costBasis := 0, description := row.desc }
        let entry2 : Position :=
          { shares := entry.shares + toNumber row.qty
            costBasis := entry.costBasis + cost
            description := match entry.description with
              | none => row.desc
              | some d => some d }
        insertPos m s entry2

/-- `dedupe` of part_000 lines 70-81: keep the first occurrence of each
distinct row (`seen` accumulates the rows already kept). -/
def dedupeAux {α : Type} [DecidableEq α] (seen : List α) : List α → List α
  | [] => []
  | r :: rest => if r ∈ seen then dedupeAux seen rest else r :: dedupeAux (r :: seen) rest

/-- `dedupe(rows)` of part_000 lines 70-81. -/
def dedupeRows {α : Type} [DecidableEq α] (rows : List α) : List α := dedupeAux [] rows

/-- `parsePositions` of part_000 lines 246-264 over normalized rows. -/
def parsePositions (rows : List PosRow) : List (String × Position) :=
  (dedupeRows rows).foldl posStep []

/-! ## Unitization engine (`src/node-app/portfolio.js`, `combineSeries`,
lines 360-382) -/

/-- The unit-accounting state `(unitPrice, unitCount)`, seeded `(1, 0)`. -/
structure UnitState where
  unitPrice : ℚ
  unitCount : ℚ
deriving DecidableEq, Repr

/-- One day of `combineSeries`, portfolio.js lines 366-377: an external
inflow (`flow < -EPSILON`) buys units at `unitPrice` (substituted with 1
when `|unitPrice| < EPSILON`); an external outflow (`flow > EPSILON`,
guarded only by `unitPrice !== 0`) sells units at `unitPrice`, flooring
the count at 0; then a known market value revalues `unitPrice` whenever
`unitCount > 0`. -/
def combineStep (st : UnitState) (mv : Option ℚ) (flow : ℚ) : UnitState :=
  let st1 :=
    if flow < -EPSILON then
      let up := if |st.unitPrice| < EPSILON then 1 else st.unitPrice
      { unitPrice := up, unitCount := st.unitCount + (-flow) / up }
    else if flow > EPSILON ∧ st.unitPrice ≠ 0 then
      let uc := st.unitCount - flow / st.unitPrice
      { st with unitCount := if uc < 0 then 0 else uc }
    else st
  match mv with
  | some v => if st1.unitCount > 0 then { st1 with unitPrice := v / st1.unitCount } else st1
  | none => st1

/-- The day loop of `combineSeries`, recording `(unitPrice, unitCount)`
after each day; returns the `(nav, units)` series. -/
def combineAux (st : UnitState) : List (Option ℚ × ℚ) → List ℚ × List ℚ
  | [] => ([], [])
  | (mv, flow) :: rest =>
      let st2 := combineStep st mv flow
      let r := combineAux st2 rest
      (st2.unitPrice :: r.1, st2.unitCount :: r.2)

/-- `combineSeries(marketValues, cashflows)`, portfolio.js lines 360-382. -/
def combineSeries (mvs : List (Option ℚ)) (cfs : List ℚ) : List ℚ × List ℚ :=
  combineAux { unitPrice := 1, unitCount := 0 } (mvs.zip cfs)

/-- Which of the two dividing branches of `combineSeries` ran on a day. -/
inductive FlowBranch
  | inflow
  | outflow
deriving DecidableEq, Repr

/-- The divisor used by the day's dividing branch, if any: the inflow
branch divides by `unitPrice` after the near-zero substitution with 1;
the outflow branch divides by `unitPrice` unchanged. -/
def stepDivisors (st : UnitState) (flow : ℚ) : List (FlowBranch × ℚ) :=
  if flow < -EPSILON then
    [(.inflow, if |st.unitPrice| < EPSILON then 1 else st.unitPrice)]
  else if flow > EPSILON ∧ st.unitPrice ≠ 0 then
    [(.outflow, st.unitPrice)]
  else []

/-- All divisors used across a run of `combineSeries`, in day order. -/
def combineDivisorsAux (st : UnitState) : List (Option ℚ × ℚ) → List (FlowBranch × ℚ)
  | [] => []
  | (mv, flow) :: rest =>
      stepDivisors st flow ++ combineDivisorsAux (combineStep st mv flow) rest

/-- The divisors used by `combineSeries marketValues cashflows`. -/
def combineDivisors (mvs : List (Option ℚ)) (cfs : List ℚ) : List (FlowBranch × ℚ) :=
  combineDivisorsAux { unitPrice := 1, unitCount := 0 } (mvs.zip cfs)

/-! ## Time-weighted return (`src/node-app/portfolio.js`, `computeTwr`,
lines 384-391) -/

/-- A day is a valid TWR bracket when `units > EPSILON` and
`nav > EPSILON` (portfolio.js lines 385-388); the pair is `(units, nav)`. -/
def twrValid (p : ℚ × ℚ) : Prop := EPSILON < p.1 ∧ EPSILON < p.2

instance : DecidablePred twrValid := fun p => by
  unfold twrValid; infer_instance

/-- `Array.find` over `(units, nav)` day pairs with the validity
predicate of `computeTwr`. -/
def findValid : List (ℚ × ℚ) → Option (ℚ × ℚ)
  | [] => none
  | p :: rest => if twrValid p then some p else findValid rest

/-- `computeTwr(units, nav)`, portfolio.js lines 384-391: the first and
the last valid day (the reversed `find` of line 388 with its index
arithmetic is the first valid pair of the reversed day list); `null` when
none exists.  The JavaScript emptiness test on the filtered list and the
falsy checks on `first`/`last` collapse into the `none` fallback: `find`
returns `undefined` exactly when the filter is empty, and a found value
exceeds `EPSILON > 0`, hence is never falsy. -/
def computeTwr (units nav : List ℚ) : Option ℚ :=
  match findValid (units.zip nav), findValid (units.zip nav).reverse with
  | some f, some l => some (l.2 / f.2 - 1)
  | _, _ => none

/-! ## XIRR (`src/node-app/portfolio.js`, `computeXirr`, lines 405-442)

The solver is parametric in `npv : ℚ → ℚ`, standing for the source's
`xnpv` closure (lines 412-415) whose real-power discounting is not a
computable rational function; every theorem below holds for an arbitrary
`npv`.  Flows are `(day, amount)` pairs.  Alongside their result, the
loop models return the number of `npv` evaluations they perform, for the
resource claims. -/

/-- The bracket-expansion loop of `computeXirr`, portfolio.js
lines 420-426: while the endpoint NPVs share a sign and fewer than 10
attempts were made, double `high`, re-evaluate, and stop past `1e6`.
Returns `(high, fHigh, evaluations)`; `fuel` is `10 - attempts`. -/
def expandHigh (npv : ℚ → ℚ) (fLow : ℚ) : ℕ → ℚ → ℚ → ℚ × ℚ × ℕ
  | 0, high, fHigh => (high, fHigh, 0)
  | fuel + 1, high, fHigh =>
      if 0 < fLow * fHigh then
        let h2 := high * 2
        let f2 := npv h2
        if 1000000 < h2 then (h2, f2, 1)
        else
          let r := expandHigh npv fLow fuel h2 f2
          (r.1, r.2.1, r.2.2 + 1)
      else (high, fHigh, 0)

/-- The bisection loop of `computeXirr`, portfolio.js lines 428-441: at
most 100 iterations; each computes the midpoint and its NPV, returns the
midpoint early when `|NPV| < 1e-6`, otherwise halves towards the
sign-changing side; after the last iteration the midpoint is returned.
Returns `(rate, evaluations)`; the fuel-0 base case is unreachable from
the top-level call with fuel 100. -/
def bisectGo (npv : ℚ → ℚ) : ℕ → ℚ → ℚ → ℚ → ℚ × ℕ
  | 0, low, high, _ => ((low + high) / 2, 0)
  | fuel + 1, low, high, fLow =>
      let mid := (low + high) / 2
      let fMid := npv mid
      if |fMid| < 1 / 1000000 then (mid, 1)
      else if fuel = 0 then (mid, 1)
      else if fLow * fMid < 0 then
        let r := bisectGo npv fuel low mid fLow
        (r.1, r.2 + 1)
      else
        let r := bisectGo npv fuel mid high fMid
        (r.1, r.2 + 1)

/-- `computeXirr(flows)`, portfolio.js lines 405-442, with the number of
`npv` evaluations: empty flow list or no sign change among amounts gives
`null`; otherwise bracket `[-0.999, 10]` is expanded (at most 10
doublings), `null` if the endpoint NPVs still share a sign, else the
bisection result. -/
def computeXirrRun (npv : ℚ → ℚ) (flows : List (ℤ × ℚ)) : Option ℚ × ℕ :=
  match flows with
  | [] => (none, 0)
  | _ :: _ =>
      if ¬ (∃ a ∈ flows.map Prod.snd, a < 0) ∨ ¬ (∃ a ∈ flows.map Prod.snd, 0 < a) then
        (none, 0)
      else
        let low : ℚ := -(999 / 1000)
        let fLow := npv low
        let fHigh := npv 10
        let r := expandHigh npv fLow 10 10 fHigh
        if 0 < fLow * r.2.1 then (none, 2 + r.2.2)
        else
          let b := bisectGo npv 100 low r.1 fLow
          (some b.1, 2 + r.2.2 + b.2)

/-- The rate returned by `computeXirr` (`null` as `none`). -/
def computeXirr (npv : ℚ → ℚ) (flows : List (ℤ × ℚ)) : Option ℚ :=
  (computeXirrRun npv flows).1

/-- How many times `computeXirr` evaluates the NPV function. -/
def xirrNpvEvals (npv : ℚ → ℚ) (flows : List (ℤ × ℚ)) : ℕ :=
  (computeXirrRun npv flows).2

/-! ## Theorems -/

theorem mkLedger_unfold (evs : List Event) :
    mkLedger evs =
      if (sortEvents evs).isEmpty then { emptyLedger with events := sortEvents evs }
      else
        { emptyLedger with
          events := sortEvents evs
          shareHistory := ((sortEvents evs).foldl foldStep initFoldState).shareHistory
          dividendEvents := ((sortEvents evs).foldl foldStep initFoldState).dividendEvents
          cashflows := ((sortEvents evs).foldl foldStep initFoldState).cashflows
          totalContributions := ((sortEvents evs).foldl foldStep initFoldState).totalContrib
          totalWithdrawals := ((sortEvents evs).foldl foldStep initFoldState).totalWithdrawals
          netInvestedCash := ((sortEvents evs).foldl foldStep initFoldState).totalContrib
            - ((sortEvents evs).foldl foldStep initFoldState).totalWithdrawals
          dividendsReceived := ((sortEvents evs).foldl foldStep initFoldState).dividendsPaid
          currentShares := ((sortEvents evs).foldl foldStep initFoldState).shares
          startDate := ((sortEvents evs).foldl foldStep initFoldState).startDate
          endDate := ((sortEvents evs).foldl foldStep initFoldState).endDate
          closed := decide (((sortEvents evs).foldl foldStep initFoldState).shares ≤ 0) } := rfl

/-! ### Helper lemmas about the ledger fold -/

theorem foldl_foldStep_shares (l : List Event) :
    ∀ s : FoldState, (l.foldl foldStep s).shares = s.shares + (l.map Event.sharesDelta).sum := by
  induction l with
  | nil => intro s; simp
  | cons e rest ih =>
    intro s
    simp only [List.foldl_cons, List.map_cons, List.sum_cons, ih, foldStep]
    ring

/-- Running share totals: the values successively taken by `shares` in
the forward pass, i.e. the `sharesAfter` column of `shareHistory`. -/
def runningTotals (acc : ℚ) : List ℚ → List ℚ
  | [] => []
  | x :: xs => (acc + x) :: runningTotals (acc + x) xs

theorem foldl_foldStep_shareHistory (l : List Event) :
    ∀ s : FoldState, (l.foldl foldStep s).shareHistory.map Prod.snd
      = s.shareHistory.map Prod.snd ++ runningTotals s.shares (l.map Event.sharesDelta) := by
  induction l with
  | nil => intro s; simp [runningTotals]
  | cons e rest ih =>
    intro s
    simp only [List.foldl_cons, List.map_cons, runningTotals, ih, foldStep]
    simp

theorem foldl_foldStep_cashflows_external (l : List Event) :
    ∀ s : FoldState,
      (s.cashflows.all fun c => c.external == decide (c.type ≠ ActionType.reinvest)) = true →
      ((l.foldl foldStep s).cashflows.all
        fun c => c.external == decide (c.type ≠ ActionType.reinvest)) = true := by
  induction l with
  | nil => intro s hs; simpa using hs
  | cons e rest ih =>
    intro s hs
    simp only [List.foldl_cons]
    apply ih
    simp only [foldStep, List.all_append, hs, Bool.true_and]
    simp

theorem reconcile_none_currentShares (l : Ledger) :
    (reconcile l none).currentShares = l.currentShares := by
  simp [reconcile]

theorem reconcile_none_shareHistory (l : Ledger) :
    (reconcile l none).shareHistory = l.shareHistory := by
  simp [reconcile]

/-! ### Claim C1 -/

/-- Claim C1: for every retained activity row, the event's signs are derived
solely from the classified action using magnitude-only quantity and amount
values — a buy yields `sharesDelta = +|qty|`, `cashFlow = -|amt|`; a sell
yields `sharesDelta = -|qty|`, `cashFlow = +|amt|`; a dividend yields
`dividendAmount = |amt|`, `cashFlow = +|amt|`, `sharesDelta = 0`; a
reinvest yields `dividendAmount = |amt|`, `sharesDelta = +|qty|`,
`cashFlow = 0`, `reinvested = true`; and in every ledger's cash-flow list
the reinvest entries are exactly the ones marked internal
(`external = false`). -/
theorem c1_event_signs_and_external_flows :
    (∀ (d : ℤ) (seq : ℕ) (q : ℚ) (amts : List ℚ),
      mkEvent .buy d seq q amts =
        { date := d, eventType := .buy, sequence := seq, sharesDelta := |q|,
          cashFlow := -|firstNonzero amts|, dividendAmount := 0, reinvested := false } ∧
      mkEvent .sell d seq q amts =
        { date := d, eventType := .sell, sequence := seq, sharesDelta := -|q|,
          cashFlow := |firstNonzero amts|, dividendAmount := 0, reinvested := false } ∧
      mkEvent .dividend d seq q amts =
        { date := d, eventType := .dividend, sequence := seq, sharesDelta := 0,
          cashFlow := |firstNonzero amts|, dividendAmount := |firstNonzero amts|,
          reinvested := false } ∧
      mkEvent .reinvest d seq q amts =
        { date := d, eventType := .reinvest, sequence := seq, sharesDelta := |q|,
          cashFlow := 0, dividendAmount := |firstNonzero amts|, reinvested := true }) ∧
    (∀ evs : List Event,
      ((mkLedger evs).cashflows.all
        fun c => c.external == decide (c.type ≠ ActionType.reinvest)) = true) := by
  constructor
  · intro d seq q amts
    refine ⟨rfl, rfl, rfl, rfl⟩
  · intro evs
    rw [mkLedger_unfold]
    split
    · simp [emptyLedger]
    · exact foldl_foldStep_cashflows_external _ _ (by simp [initFoldState])

/-! ### Claim C2 -/

/-- Claim C2: for a ledger built from activity with no overriding holding,
`currentShares` equals the cumulative sum of `sharesDelta` over the sorted
events, and `shareHistory` carries exactly the running partial sums of the
same forward fold. -/
theorem c2_current_shares_cumulative :
    ∀ evs : List Event,
      (reconcile (mkLedger evs) none).currentShares
        = ((sortEvents evs).map Event.sharesDelta).sum ∧
      (reconcile (mkLedger evs) none).shareHistory.map Prod.snd
        = runningTotals 0 ((sortEvents evs).map Event.sharesDelta) := by
  intro evs
  rw [reconcile_none_currentShares, reconcile_none_shareHistory]
  rw [mkLedger_unfold]
  split
  · rename_i h
    rw [List.isEmpty_iff] at h
    simp [emptyLedger, h, runningTotals]
  · constructor
    · rw [foldl_foldStep_shares]
      simp [initFoldState]
    · rw [foldl_foldStep_shareHistory]
      simp [initFoldState]

/-! ### Claim C8 -/

/-- Claim C8: in the reconciled model, `effectiveCostBasis` equals
`positionCostBasis` when the latter is positive and `netInvestedCash`
otherwise; in particular a holding reporting zero cost basis for a symbol
whose activity shows `netInvestedCash = 1000` yields
`effectiveCostBasis = 1000`. -/
theorem c8_effective_cost_basis :
    (∀ (l : Ledger) (p : Option Position),
      (reconcile l p).effectiveCostBasis =
        if 0 < (reconcile l p).positionCostBasis then (reconcile l p).positionCostBasis
        else (reconcile l p).netInvestedCash) ∧
    (reconcile (mkLedger [mkEvent .buy 0 0 5 [1000]])
        (some { shares := 5, costBasis := 0, description := none })).effectiveCostBasis
      = 1000 := by
  constructor
  · intro l p
    cases p with
    | none => simp [reconcile]
    | some p =>
        by_cases hs : 0 < p.shares <;> by_cases hb : 0 < p.costBasis <;>
          simp [reconcile, hs, hb]
  · norm_num [reconcile, mkLedger_unfold, sortEvents, List.insertionSort,
      List.orderedInsert, mkEvent, firstNonzero, foldStep, initFoldState, emptyLedger]
    decide

/-! ### Claim C7 -/

theorem foldl_foldStep_dividendEvents (l : List Event) :
    ∀ s : FoldState,
      (l.foldl foldStep s).dividendEvents = s.dividendEvents ++ divRecord s.shares l := by
  induction l with
  | nil => intro s; simp [divRecord]
  | cons e rest ih =>
    intro s
    simp only [List.foldl_cons, ih, divRecord, foldStep]
    simp

theorem eventOrder_eq_zero {t : ActionType} (h : eventOrder t = 0) :
    t = ActionType.dividend := by
  cases t <;> simp_all [eventOrder]

theorem map_sum_filter_eq (f : Event → ℚ) (p : Event → Bool) (l : List Event)
    (h : ∀ x ∈ l, p x = false → f x = 0) :
    (l.map f).sum = ((l.filter p).map f).sum := by
  induction l with
  | nil => simp
  | cons x xs ih =>
    have hx := h x (by simp)
    have ihx := ih fun y hy => h y (by simp [hy])
    cases hp : p x with
    | false => simp [List.filter_cons, hp, hx hp, ihx]
    | true => simp [List.filter_cons, hp, ihx]

theorem mem_of_mem_sortEvents {x : Event} {l : List Event} (h : x ∈ sortEvents l) :
    x ∈ l :=
  (List.perm_insertionSort EventLE l).subset h

theorem sorted_sortEvents (l : List Event) : List.Sorted EventLE (sortEvents l) :=
  List.sorted_insertionSort EventLE l

/-- Claim C7: every dividend event records `sharesAtEvent` equal to the
shares held immediately before that event's own share delta is applied
(the ledger's dividend list is exactly the running-count recorder
`divRecord` over the sorted events); moreover, since dividend-type events
sort first within a day and carry a zero delta, the shares recorded for a
dividend-type event equal the count accumulated from strictly earlier
days; and concretely, 10 shares held plus a same-day $5 dividend fully
reinvested into 1 new share produce a dividend event with
`sharesAtEvent = 10` and end-of-day shares 11. -/
theorem c7_dividend_shares_at_event :
    (∀ evs : List Event,
      (∀ x ∈ evs, x.eventType = ActionType.dividend → x.sharesDelta = 0) →
      (mkLedger evs).dividendEvents = divRecord 0 (sortEvents evs) ∧
      (∀ (a : List Event) (e : Event) (b : List Event),
        sortEvents evs = a ++ e :: b → e.eventType = ActionType.dividend →
        (a.map Event.sharesDelta).sum
          = ((a.filter fun x => decide (x.date < e.date)).map Event.sharesDelta).sum)) ∧
    ((mkLedger [mkEvent .reinvest 1 0 1 [5], mkEvent .buy 0 1 10 [100],
        mkEvent .dividend 1 2 0 [5]]).dividendEvents
      = [{ date := 1, amount := 5, sharesAtEvent := 10, reinvested := false },
         { date := 1, amount := 5, sharesAtEvent := 10, reinvested := true }] ∧
      (mkLedger [mkEvent .reinvest 1 0 1 [5], mkEvent .buy 0 1 10 [100],
        mkEvent .dividend 1 2 0 [5]]).currentShares = 11) := by
  constructor
  · intro evs h0
    constructor
    · rw [mkLedger_unfold]
      split
      · rename_i h
        rw [List.isEmpty_iff] at h
        simp [emptyLedger, h, divRecord]
      · rw [foldl_foldStep_dividendEvents]
        simp [initFoldState]
    · intro a e b hdec hdiv
      have hsorted := sorted_sortEvents evs
      rw [hdec, List.Sorted, List.pairwise_append] at hsorted
      apply map_sum_filter_eq
      intro x hx hfalse
      have hle : EventLE x e := hsorted.2.2 x hx e (by simp)
      have hxevs : x ∈ evs := mem_of_mem_sortEvents (by rw [hdec]; simp [hx])
      have hnotlt : ¬ x.date < e.date := by simpa using hfalse
      rcases hle with hlt | ⟨_, hord⟩
      · exact absurd hlt hnotlt
      · rcases hord with hlt0 | ⟨heq0, _⟩
        · rw [hdiv] at hlt0
          exact absurd hlt0 (by simp [eventOrder])
        · rw [hdiv] at heq0
          exact h0 x hxevs (eventOrder_eq_zero (by simpa [eventOrder] using heq0))
  · constructor <;>
      norm_num [mkLedger_unfold, sortEvents, List.insertionSort, List.orderedInsert,
        EventLE, eventOrder, mkEvent, firstNonzero, foldStep, initFoldState, emptyLedger]

/-- Witness for C7: the theorem applied to the concrete
buy-dividend-reinvest scenario, discharging its hypotheses there. -/
theorem c7_dividend_shares_at_event_witness :
    (mkLedger [mkEvent .reinvest 1 0 1 [5], mkEvent .buy 0 1 10 [100],
        mkEvent .dividend 1 2 0 [5]]).dividendEvents
      = divRecord 0 (sortEvents [mkEvent .reinvest 1 0 1 [5], mkEvent .buy 0 1 10 [100],
        mkEvent .dividend 1 2 0 [5]]) ∧
    ([mkEvent .buy 0 1 10 [100]].map Event.sharesDelta).sum
      = (([mkEvent .buy 0 1 10 [100]].filter fun x =>
          decide (x.date < (mkEvent .dividend 1 2 0 [5]).date)).map Event.sharesDelta).sum := by
  have h := c7_dividend_shares_at_event.1
    [mkEvent .reinvest 1 0 1 [5], mkEvent .buy 0 1 10 [100], mkEvent .dividend 1 2 0 [5]]
    (by
      intro x hx
      simp only [List.mem_cons, List.not_mem_nil, or_false] at hx
      rcases hx with rfl | rfl | rfl <;> simp [mkEvent, firstNonzero])
  refine ⟨h.1, h.2 [mkEvent .buy 0 1 10 [100]] (mkEvent .dividend 1 2 0 [5])
    [mkEvent .reinvest 1 0 1 [5]] ?_ rfl⟩
  norm_num [sortEvents, List.insertionSort, List.orderedInsert, EventLE, eventOrder,
    mkEvent, firstNonzero]

/-! ### Claim C9 -/

theorem lookupPos_insertPos (m : List (String × Position)) (k : String) (p : Position)
    (s : String) :
    lookupPos (insertPos m k p) s = if k = s then some p else lookupPos m s := by
  induction m with
  | nil => simp [insertPos, lookupPos]
  | cons kv rest ih =>
    obtain ⟨k', v'⟩ := kv
    by_cases hk : k' = k
    · subst hk
      by_cases hs : k' = s <;> simp [insertPos, lookupPos, hs]
    · by_cases hs : k' = s
      · subst hs
        have : ¬ k = k' := fun h => hk h.symm
        simp [insertPos, lookupPos, hk, this]
      · simp [insertPos, lookupPos, hk, hs, ih]

theorem mem_of_mem_dedupeAux {α : Type} [DecidableEq α] {x : α} :
    ∀ (l seen : List α), x ∈ dedupeAux seen l → x ∈ l := by
  intro l
  induction l with
  | nil => intro seen h; simp [dedupeAux] at h
  | cons r rest ih =>
    intro seen h
    simp only [dedupeAux] at h
    split at h
    · exact List.mem_cons_of_mem r (ih _ h)
    · rcases List.mem_cons.mp h with rfl | hmem
      · exact List.mem_cons_self x rest
      · exact List.mem_cons_of_mem r (ih _ hmem)

theorem foldl_posStep_lookup_none (s : String) :
    ∀ (l : List PosRow) (m : List (String × Position)),
      lookupPos m s = none →
      (∀ r ∈ l, r.sym = some s → toNumber r.qty ≤ 0) →
      lookupPos (l.foldl posStep m) s = none := by
  intro l
  induction l with
  | nil => intro m hm _; simpa using hm
  | cons r rest ih =>
    intro m hm hl
    simp only [List.foldl_cons]
    refine ih (posStep m r) ?_ fun r' hr' => hl r' (by simp [hr'])
    cases hsym : r.sym with
    | none => simpa [posStep, hsym] using hm
    | some t =>
      by_cases hcash : r.cashLike
      · simpa [posStep, hsym, hcash] using hm
      · by_cases hqty : toNumber r.qty ≤ 0
        · simpa [posStep, hsym, hcash, hqty] using hm
        · have hts : t ≠ s := by
            intro h
            subst h
            exact hqty (hl r (by simp) hsym)
          simp [posStep, hsym, hcash, hqty, lookupPos_insertPos, hts, hm]

/-- Claim C9: `parsePositions` ignores every holdings row whose parsed
quantity is not positive — such a row leaves the positions map unchanged,
contributing neither shares nor cost basis nor a description; a missing
or unparsable quantity cell coerces to 0 and is therefore ignored too;
and a symbol appearing only in such rows is absent from the resulting
map entirely. -/
theorem c9_positions_ignore_nonpositive_quantity :
    (∀ (m : List (String × Position)) (r : PosRow),
      toNumber r.qty ≤ 0 → posStep m r = m) ∧
    toNumber (none : Option ℚ) = 0 ∧
    (∀ (rows : List PosRow) (s : String),
      (∀ r ∈ rows, r.sym = some s → toNumber r.qty ≤ 0) →
      lookupPos (parsePositions rows) s = none) := by
  refine ⟨?_, rfl, ?_⟩
  · intro m r h
    cases hsym : r.sym with
    | none => simp [posStep, hsym]
    | some t => simp [posStep, hsym, h]
  · intro rows s hrows
    exact foldl_posStep_lookup_none s (dedupeRows rows) [] (by simp [lookupPos])
      fun r hr => hrows r (mem_of_mem_dedupeAux _ _ hr)

/-- Witness for C9: a symbol whose only rows carry a negative and an
unparsable quantity ends up absent, and such a row is a no-op on the map. -/
theorem c9_positions_ignore_nonpositive_quantity_witness :
    posStep []
        ({ sym := some "AAA", cashLike := false, qty := some (-2), cost := some 100,
           desc := none } : PosRow) = [] ∧
    lookupPos (parsePositions
      [{ sym := some "AAA", cashLike := false, qty := some (-2), cost := some 100,
         desc := none },
       { sym := some "AAA", cashLike := false, qty := none, cost := some 50,
         desc := none }]) "AAA" = none := by
  have h := c9_positions_ignore_nonpositive_quantity
  refine ⟨h.1 [] _ (by norm_num [toNumber]), h.2.2 _ "AAA" ?_⟩
  intro r hr
  simp only [List.mem_cons, List.not_mem_nil, or_false] at hr
  rcases hr with rfl | rfl <;> intro _ <;> norm_num [toNumber]

/-! ### Claim C3 -/

theorem combineDivisorsAux_branch_bounds :
    ∀ (l : List (Option ℚ × ℚ)) (st : UnitState) (br : FlowBranch) (d : ℚ),
      (br, d) ∈ combineDivisorsAux st l →
      (br = FlowBranch.inflow → EPSILON ≤ |d|) ∧ (br = FlowBranch.outflow → d ≠ 0) := by
  intro l
  induction l with
  | nil => intro st br d h; simp [combineDivisorsAux] at h
  | cons p rest ih =>
    intro st br d h
    obtain ⟨mv, flow⟩ := p
    simp only [combineDivisorsAux, List.mem_append] at h
    rcases h with h | h
    · unfold stepDivisors at h
      split at h
      · simp only [List.mem_singleton, Prod.mk.injEq] at h
        obtain ⟨rfl, rfl⟩ := h
        refine ⟨fun _ => ?_, fun hbr => FlowBranch.noConfusion hbr⟩
        split
        · norm_num [EPSILON]
        · rename_i hnl
          exact le_of_not_lt hnl
      · split at h
        · simp only [List.mem_singleton, Prod.mk.injEq] at h
          obtain ⟨rfl, rfl⟩ := h
          rename_i hcond
          exact ⟨fun hbr => FlowBranch.noConfusion hbr, fun _ => hcond.2⟩
        · simp at h
    · exact ih _ _ _ h

/-- Counterexample to C3 as stated: after an inflow day whose market
value revalues the unit price to `1e-12`, the outflow branch divides by
that near-zero unit price — the divisor list of the run contains an
outflow divisor whose absolute value is below `EPSILON`, so it is not
the case that every dividing day uses a divisor of absolute value at
least `EPSILON`. -/
theorem c3_counterexample :
    combineDivisors [some (1 / 1000000000000), some 0] [-1, 1]
      = [(FlowBranch.inflow, 1), (FlowBranch.outflow, 1 / 1000000000000)] ∧
    ¬ EPSILON ≤ |(1 / 1000000000000 : ℚ)| := by
  constructor
  · norm_num [combineDivisors, combineDivisorsAux, stepDivisors, combineStep, EPSILON]
  · rw [not_le, abs_of_pos (by norm_num : (0 : ℚ) < 1 / 1000000000000)]
    norm_num [EPSILON]

/-- Claim C3, amended: during unitization the inflow branch never divides
by a near-zero unit price (a unit price with `|unitPrice| < EPSILON` is
substituted with 1 beforehand, so its divisor has absolute value at least
`EPSILON`), but the outflow branch's divisor is only guaranteed to be
non-zero (the division is skipped when `unitPrice === 0`) and can be
arbitrarily close to zero. -/
theorem c3_unitization_divisors :
    ∀ (mvs : List (Option ℚ)) (cfs : List ℚ) (br : FlowBranch) (d : ℚ),
      (br, d) ∈ combineDivisors mvs cfs →
      (br = FlowBranch.inflow → EPSILON ≤ |d|) ∧ (br = FlowBranch.outflow → d ≠ 0) := by
  intro mvs cfs br d h
  exact combineDivisorsAux_branch_bounds _ _ _ _ h

/-- Witness for C3's amended theorem at the concrete run of the
counterexample: the inflow divisor is bounded away from zero and the
outflow divisor is non-zero. -/
theorem c3_unitization_divisors_witness :
    EPSILON ≤ |(1 : ℚ)| ∧ (1 / 1000000000000 : ℚ) ≠ 0 := by
  constructor
  · exact (c3_unitization_divisors [some (1 / 1000000000000), some 0] [-1, 1]
      FlowBranch.inflow 1
      (by norm_num [combineDivisors, combineDivisorsAux, stepDivisors, combineStep,
        EPSILON])).1 rfl
  · exact (c3_unitization_divisors [some (1 / 1000000000000), some 0] [-1, 1]
      FlowBranch.outflow (1 / 1000000000000)
      (by norm_num [combineDivisors, combineDivisorsAux, stepDivisors, combineStep,
        EPSILON])).2 rfl

/-! ### Claim C4 -/

theorem findValid_eq_none :
    ∀ l : List (ℚ × ℚ), (∀ y ∈ l, ¬ twrValid y) → findValid l = none := by
  intro l
  induction l with
  | nil => intro _; rfl
  | cons p rest ih =>
    intro h
    simp only [findValid, if_neg (h p (by simp))]
    exact ih fun y hy => h y (by simp [hy])

theorem findValid_append (a : List (ℚ × ℚ)) (x : ℚ × ℚ) (b : List (ℚ × ℚ))
    (ha : ∀ y ∈ a, ¬ twrValid y) (hx : twrValid x) :
    findValid (a ++ x :: b) = some x := by
  induction a with
  | nil => simp [findValid, if_pos hx]
  | cons y ys ih =>
    simp only [List.cons_append, findValid, if_neg (ha y (by simp))]
    exact ih fun z hz => ha z (by simp [hz])

/-- Claim C4: `computeTwr` returns `nav_last / nav_first - 1` where the
first and last days are the earliest and latest `(units, nav)` pairs with
`units > EPSILON` and `nav > EPSILON`, and returns `none` when no such
day exists; concretely, a single $100 buy of 10 shares at $10 followed
only by appreciation to $15 yields a TWR percentage of exactly 50. -/
theorem c4_twr_bracketing :
    (∀ (units nav : List ℚ) (f l : ℚ × ℚ) (a b c d : List (ℚ × ℚ)),
      units.zip nav = a ++ f :: b → twrValid f → (∀ y ∈ a, ¬ twrValid y) →
      units.zip nav = c ++ l :: d → twrValid l → (∀ y ∈ d, ¬ twrValid y) →
      computeTwr units nav = some (l.2 / f.2 - 1)) ∧
    (∀ units nav : List ℚ,
      (∀ y ∈ units.zip nav, ¬ twrValid y) → computeTwr units nav = none) ∧
    ((computeTwr (combineSeries [some 100, some 150] [-100, 0]).2
        (combineSeries [some 100, some 150] [-100, 0]).1).map (fun t => t * 100)
      = some 50) := by
  refine ⟨?_, ?_, ?_⟩
  · intro units nav f l a b c d h1 hf ha h4 hl hd
    have hF : findValid (units.zip nav) = some f := by
      rw [h1]; exact findValid_append a f b ha hf
    have hL : findValid (units.zip nav).reverse = some l := by
      rw [h4]
      have : (c ++ l :: d).reverse = d.reverse ++ l :: c.reverse := by
        simp [List.reverse_append]
      rw [this]
      exact findValid_append _ l _ (fun y hy => hd y (List.mem_reverse.mp hy)) hl
    simp [computeTwr, hF, hL]
  · intro units nav h
    have hF : findValid (units.zip nav) = none := findValid_eq_none _ h
    have hL : findValid (units.zip nav).reverse = none :=
      findValid_eq_none _ fun y hy => h y (List.mem_reverse.mp hy)
    simp [computeTwr, hF, hL]
  · norm_num [computeTwr, combineSeries, combineAux, combineStep, findValid,
      twrValid, EPSILON]

/-- Witness for C4: the theorem applied to the concrete two-day series
(valid bracket on both days) and to an all-invalid series. -/
theorem c4_twr_bracketing_witness :
    computeTwr [100, 100] [1, 3 / 2] = some ((100, (3 : ℚ) / 2).2 / ((100 : ℚ), (1 : ℚ)).2 - 1) ∧
    computeTwr [0, 0] [1, 1] = none := by
  constructor
  · exact c4_twr_bracketing.1 [100, 100] [1, 3 / 2] (100, 1) (100, 3 / 2)
      [] [(100, 3 / 2)] [(100, 1)] []
      rfl (by norm_num [twrValid, EPSILON]) (by simp)
      rfl (by norm_num [twrValid, EPSILON]) (by simp)
  · refine c4_twr_bracketing.2.1 [0, 0] [1, 1] ?_
    intro y hy
    fin_cases hy <;> norm_num [twrValid, EPSILON]

/-! ### Claims C5, C6, C10 -/

theorem computeXirrRun_cons (npv : ℚ → ℚ) (p : ℤ × ℚ) (ps : List (ℤ × ℚ)) :
    computeXirrRun npv (p :: ps) =
      if ¬ (∃ a ∈ (p :: ps).map Prod.snd, a < 0) ∨
          ¬ (∃ a ∈ (p :: ps).map Prod.snd, 0 < a) then
        (none, 0)
      else
        if 0 < npv (-(999 / 1000)) *
            (expandHigh npv (npv (-(999 / 1000))) 10 10 (npv 10)).2.1 then
          (none, 2 + (expandHigh npv (npv (-(999 / 1000))) 10 10 (npv 10)).2.2)
        else
          (some (bisectGo npv 100 (-(999 / 1000))
              (expandHigh npv (npv (-(999 / 1000))) 10 10 (npv 10)).1
              (npv (-(999 / 1000)))).1,
            2 + (expandHigh npv (npv (-(999 / 1000))) 10 10 (npv 10)).2.2
              + (bisectGo npv 100 (-(999 / 1000))
                  (expandHigh npv (npv (-(999 / 1000))) 10 10 (npv 10)).1
                  (npv (-(999 / 1000)))).2) := rfl

theorem bisectGo_succ (npv : ℚ → ℚ) (fuel : ℕ) (low high fLow : ℚ) :
    bisectGo npv (fuel + 1) low high fLow =
      if |npv ((low + high) / 2)| < 1 / 1000000 then ((low + high) / 2, 1)
      else if fuel = 0 then ((low + high) / 2, 1)
      else if fLow * npv ((low + high) / 2) < 0 then
        ((bisectGo npv fuel low ((low + high) / 2) fLow).1,
          (bisectGo npv fuel low ((low + high) / 2) fLow).2 + 1)
      else
        ((bisectGo npv fuel ((low + high) / 2) high (npv ((low + high) / 2))).1,
          (bisectGo npv fuel ((low + high) / 2) high (npv ((low + high) / 2))).2 + 1) := rfl

theorem expandHigh_evals_le (npv : ℚ → ℚ) (fLow : ℚ) :
    ∀ (fuel : ℕ) (high fHigh : ℚ), (expandHigh npv fLow fuel high fHigh).2.2 ≤ fuel := by
  intro fuel
  induction fuel with
  | zero => intro high fHigh; simp [expandHigh]
  | succ n ih =>
    intro high fHigh
    simp only [expandHigh]
    split
    · split
      · simp
      · simpa using Nat.succ_le_succ (ih _ _)
    · simp

theorem bisectGo_evals_le (npv : ℚ → ℚ) :
    ∀ (fuel : ℕ) (low high fLow : ℚ), (bisectGo npv fuel low high fLow).2 ≤ fuel := by
  intro fuel
  induction fuel with
  | zero => intro low high fLow; simp [bisectGo]
  | succ n ih =>
    intro low high fLow
    simp only [bisectGo]
    split
    · simp
    · split
      · simp
      · split
        · simpa using Nat.succ_le_succ (ih _ _ _)
        · simpa using Nat.succ_le_succ (ih _ _ _)

theorem expandHigh_ge (npv : ℚ → ℚ) (fLow : ℚ) :
    ∀ (fuel : ℕ) (high fHigh : ℚ), 0 < high →
      high ≤ (expandHigh npv fLow fuel high fHigh).1 := by
  intro fuel
  induction fuel with
  | zero => intro high fHigh _; simp [expandHigh]
  | succ n ih =>
    intro high fHigh hpos
    simp only [expandHigh]
    split
    · split
      · simp only
        linarith
      · have := ih (high * 2) (npv (high * 2)) (by linarith)
        simp only
        linarith
    · simp

theorem expandHigh_le (npv : ℚ → ℚ) (fLow : ℚ) :
    ∀ (fuel : ℕ) (high fHigh : ℚ), 0 < high →
      (expandHigh npv fLow fuel high fHigh).1 ≤ high * 2 ^ fuel := by
  intro fuel
  induction fuel with
  | zero => intro high fHigh hpos; simp [expandHigh]
  | succ n ih =>
    intro high fHigh hpos
    have h2n : (1 : ℚ) ≤ 2 ^ n := one_le_pow₀ (by norm_num)
    simp only [expandHigh]
    split
    · split
      · simp only [pow_succ]
        nlinarith
      · have := ih (high * 2) (npv (high * 2)) (by linarith)
        simp only [pow_succ]
        nlinarith
    · simp only [pow_succ]
      nlinarith

theorem bisectGo_bounds (npv : ℚ → ℚ) :
    ∀ (fuel : ℕ) (low high fLow : ℚ), low < high →
      low < (bisectGo npv fuel low high fLow).1 ∧ (bisectGo npv fuel low high fLow).1 < high := by
  intro fuel
  induction fuel with
  | zero =>
    intro low high fLow hlt
    constructor <;> simp [bisectGo] <;> linarith
  | succ n ih =>
    intro low high fLow hlt
    have hmid₁ : low < (low + high) / 2 := by linarith
    have hmid₂ : (low + high) / 2 < high := by linarith
    simp only [bisectGo]
    split
    · exact ⟨hmid₁, hmid₂⟩
    · split
      · exact ⟨hmid₁, hmid₂⟩
      · split
        · have := ih low ((low + high) / 2) fLow hmid₁
          exact ⟨this.1, lt_trans this.2 hmid₂⟩
        · have := ih ((low + high) / 2) high (npv ((low + high) / 2)) hmid₂
          exact ⟨lt_trans hmid₁ this.1, this.2⟩

/-- Claim C5: on a dated cash-flow set whose amounts are all negative, or
all positive (no sign change), `computeXirr` returns `none`, for every
NPV function — in particular the source's. -/
theorem c5_xirr_monotone_flows :
    ∀ (npv : ℚ → ℚ) (flows : List (ℤ × ℚ)),
      ((∀ a ∈ flows.map Prod.snd, a < 0) ∨ (∀ a ∈ flows.map Prod.snd, 0 < a)) →
      computeXirr npv flows = none := by
  intro npv flows h
  cases flows with
  | nil => rfl
  | cons p ps =>
    rw [computeXirr, computeXirrRun_cons, if_pos]
    rcases h with h | h
    · refine Or.inr fun ⟨a, ha, hpos⟩ => absurd (h a ha) (by linarith)
    · refine Or.inl fun ⟨a, ha, hneg⟩ => absurd (h a ha) (by linarith)

/-- Witness for C5: an all-negative singleton flow set yields `none`. -/
theorem c5_xirr_monotone_flows_witness :
    computeXirr (fun _ => (0 : ℚ)) [((0 : ℤ), (-5 : ℚ))] = none := by
  refine c5_xirr_monotone_flows (fun _ => 0) [(0, -5)] (Or.inl ?_)
  intro a ha
  simp only [List.map_cons, List.map_nil, List.mem_singleton] at ha
  rw [ha]
  norm_num

/-- Claim C6: `computeXirr` is a bounded computation on every input: the
bracket-expansion loop performs at most `fuel` doublings (10 from the top
level), the bisection at most `fuel` iterations (100 from the top level),
the whole solver evaluates the NPV function at most 112 times, the
bisection returns the midpoint as soon as the midpoint NPV has absolute
value below `1e-6`, and when the endpoint NPVs still share a sign after
expansion the solver returns `none`. -/
theorem c6_xirr_bounded_computation :
    (∀ (npv : ℚ → ℚ) (fLow : ℚ) (fuel : ℕ) (high fHigh : ℚ),
      (expandHigh npv fLow fuel high fHigh).2.2 ≤ fuel) ∧
    (∀ (npv : ℚ → ℚ) (fuel : ℕ) (low high fLow : ℚ),
      (bisectGo npv fuel low high fLow).2 ≤ fuel) ∧
    (∀ (npv : ℚ → ℚ) (flows : List (ℤ × ℚ)), xirrNpvEvals npv flows ≤ 112) ∧
    (∀ (npv : ℚ → ℚ) (fuel : ℕ) (low high fLow : ℚ),
      |npv ((low + high) / 2)| < 1 / 1000000 →
      (bisectGo npv (fuel + 1) low high fLow).1 = (low + high) / 2) ∧
    (∀ (npv : ℚ → ℚ) (flows : List (ℤ × ℚ)),
      0 < npv (-(999 / 1000)) * (expandHigh npv (npv (-(999 / 1000))) 10 10 (npv 10)).2.1 →
      computeXirr npv flows = none) := by
  refine ⟨expandHigh_evals_le, bisectGo_evals_le, ?_, ?_, ?_⟩
  · intro npv flows
    cases flows with
    | nil => simp [xirrNpvEvals, computeXirrRun]
    | cons p ps =>
      rw [xirrNpvEvals, computeXirrRun_cons]
      split
      · simp
      · split
        · have := expandHigh_evals_le npv (npv (-(999 / 1000))) 10 10 (npv 10)
          simp only
          omega
        · have h1 := expandHigh_evals_le npv (npv (-(999 / 1000))) 10 10 (npv 10)
          have h2 := bisectGo_evals_le npv 100 (-(999 / 1000))
            (expandHigh npv (npv (-(999 / 1000))) 10 10 (npv 10)).1 (npv (-(999 / 1000)))
          simp only
          omega
  · intro npv fuel low high fLow h
    simp only [bisectGo]
    rw [if_pos h]
  · intro npv flows h
    cases flows with
    | nil => rfl
    | cons p ps =>
      rw [computeXirr, computeXirrRun_cons]
      by_cases hg : (¬ (∃ a ∈ (p :: ps).map Prod.snd, a < 0) ∨
          ¬ (∃ a ∈ (p :: ps).map Prod.snd, 0 < a))
      · rw [if_pos hg]
      · rw [if_neg hg, if_pos h]

/-- Witness for C6: the early return at a concrete midpoint, the
same-sign `none` outcome for a constant-positive NPV, and the evaluation
bound at a concrete input. -/
theorem c6_xirr_bounded_computation_witness :
    (bisectGo (fun _ => (0 : ℚ)) (0 + 1) 0 2 5).1 = (0 + 2) / 2 ∧
    computeXirr (fun _ => (1 : ℚ)) [((0 : ℤ), (-1 : ℚ)), ((30 : ℤ), (2 : ℚ))] = none ∧
    xirrNpvEvals (fun _ => (0 : ℚ)) [((0 : ℤ), (-5 : ℚ)), ((10 : ℤ), (7 : ℚ))] ≤ 112 := by
  refine ⟨c6_xirr_bounded_computation.2.2.2.1 (fun _ => 0) 0 0 2 5 (by norm_num),
    c6_xirr_bounded_computation.2.2.2.2 (fun _ => 1) [(0, -1), (30, 2)] ?_,
    c6_xirr_bounded_computation.2.2.1 (fun _ => 0) [(0, -5), (10, 7)]⟩
  norm_num [expandHigh]

/-- Claim C10: whenever `computeXirr` returns a rate `r`, it lies
strictly between `-0.999` and `10 * 2^10 = 10240`, so in particular
`1 + r > 0` and every discount base `1 + r` at the returned rate is
positive. -/
theorem c10_xirr_rate_in_bracket :
    ∀ (npv : ℚ → ℚ) (flows : List (ℤ × ℚ)) (r : ℚ),
      computeXirr npv flows = some r →
      -(999 / 1000) < r ∧ r < 10240 ∧ 0 < 1 + r := by
  intro npv flows r h
  cases flows with
  | nil => simp [computeXirr, computeXirrRun] at h
  | cons p ps =>
    rw [computeXirr, computeXirrRun_cons] at h
    split at h
    · simp at h
    · split at h
      · simp at h
      · simp only [Option.some.injEq] at h
        have hge : (10 : ℚ) ≤ (expandHigh npv (npv (-(999 / 1000))) 10 10 (npv 10)).1 :=
          expandHigh_ge npv (npv (-(999 / 1000))) 10 10 (npv 10) (by norm_num)
        have hle : (expandHigh npv (npv (-(999 / 1000))) 10 10 (npv 10)).1 ≤ 10 * 2 ^ 10 :=
          expandHigh_le npv (npv (-(999 / 1000))) 10 10 (npv 10) (by norm_num)
        have hbounds := bisectGo_bounds npv 100 (-(999 / 1000))
          (expandHigh npv (npv (-(999 / 1000))) 10 10 (npv 10)).1 (npv (-(999 / 1000)))
          (by linarith)
        rw [h] at hbounds
        refine ⟨hbounds.1, ?_, by linarith [hbounds.1]⟩
        have : (10 : ℚ) * 2 ^ 10 = 10240 := by norm_num
        linarith [hbounds.2]

/-- Witness for C10: a constant-zero NPV makes the first bisection
midpoint an early return, a concrete rate inside the bracket. -/
theorem c10_xirr_rate_in_bracket_witness :
    -(999 / 1000 : ℚ) < 9001 / 2000 ∧ (9001 / 2000 : ℚ) < 10240 ∧
      (0 : ℚ) < 1 + 9001 / 2000 := by
  refine c10_xirr_rate_in_bracket (fun _ => 0) [((0 : ℤ), (-1 : ℚ)), ((30 : ℤ), (2 : ℚ))]
    (9001 / 2000) ?_
  rw [computeXirr, computeXirrRun_cons, if_neg, if_neg]
  · have he : (expandHigh (fun _ => (0 : ℚ)) ((fun _ => (0 : ℚ)) (-(999 / 1000))) 10 10
        ((fun _ => (0 : ℚ)) 10)).1 = 10 := by
      norm_num [expandHigh]
    rw [he, show (100 : ℕ) = 99 + 1 from rfl, bisectGo_succ, if_pos (by norm_num)]
    norm_num
  · norm_num [expandHigh]
  · norm_num

end FidelityTR
